import Mathlib

/-
Verification of the ANAC delimited-file reconciliation engine
(`src/anac/load_to_bigquery.py`): dialect sniffing, quote-aware
tokenization, column normalization, cross-file schema unification,
row projection into the unified schema, and the load orchestrator.

Strings from the Python source are modelled as `List Char`; the unified
schema is sorted by an explicit lexicographic code-point order, the order
Python's `sorted` uses on `str`.
-/

namespace Anac

/-- Python `str.strip()` on a line/field: drop leading and trailing
whitespace characters. -/
def strip (l : List Char) : List Char :=
  ((l.dropWhile Char.isWhitespace).reverse.dropWhile Char.isWhitespace).reverse

/-- Python single-character `str.split(d)`: split on every occurrence of
`d`, keeping empty pieces; the empty string splits to one empty field. -/
def psplit (d : Char) : List Char → List (List Char)
  | [] => [[]]
  | c :: rest =>
    if c = d then [] :: psplit d rest
    else
      match psplit d rest with
      | [] => [[c]]
      | f :: fs => (c :: f) :: fs

/-- The quote-aware splitter of the source (lines 248-260 / 287-300):
iterate characters with an accumulating buffer and an `in_quotes` flag; a
`"` toggles the flag and is not emitted; `;` outside quotes ends a field
(each field is stripped); the final buffer is appended as the last field. -/
def tokenizeQuotedAux : List Char → List Char → Bool → List (List Char)
  | [], cur, _ => [strip cur]
  | c :: rest, cur, inQ =>
    if c = '"' then tokenizeQuotedAux rest cur (!inQ)
    else if c = ';' && !inQ then strip cur :: tokenizeQuotedAux rest [] inQ
    else tokenizeQuotedAux rest (cur ++ [c]) inQ

/-- Tokenize one line under the semicolon dialect, quote-aware. -/
def tokenizeSemicolon (line : List Char) : List (List Char) :=
  tokenizeQuotedAux line [] false

/-- Quote-aware field count used by the sniffer for the `;` candidate
(lines 227-234): count separators outside quotes, then add one. -/
def countSemis : List Char → Bool → Nat
  | [], _ => 0
  | c :: rest, inQ =>
    if c = '"' then countSemis rest (!inQ)
    else if c = ';' && !inQ then 1 + countSemis rest inQ
    else countSemis rest inQ

/-- Candidate delimiters in the priority order of the source (line 220). -/
def delimiters : List Char := [';', '|', '\t', ',']

/-- Position of a candidate in the sniffer's priority order (its index in
`delimiters`; any non-candidate is past the end). -/
def priorityIdx : Char → Nat
  | ';' => 0
  | '|' => 1
  | '\t' => 2
  | ',' => 3
  | _ => 4

/-- Field count of a line under one candidate delimiter: quote-aware for
`;`, naive split count for the others (lines 224-237). -/
def fieldCount (line : List Char) (d : Char) : Nat :=
  if d = ';' then countSemis line false + 1 else (psplit d line).length

/-- The sniffer fold (lines 221-241): keep the first candidate whose field
count strictly exceeds the running maximum, starting from `(none, 0)`. -/
def sniffAux (line : List Char) : List Char → Option Char × Nat → Option Char × Nat
  | [], acc => acc
  | d :: ds, (best, m) =>
    if m < fieldCount line d then sniffAux line ds (some d, fieldCount line d)
    else sniffAux line ds (best, m)

/-- The delimiter the sniffer selects for a header line. -/
def bestDelimiter (line : List Char) : Option Char :=
  (sniffAux line delimiters (none, 0)).1

/-- Closed form of the sniffer's choice over the four candidates. -/
def sniffSpec (line : List Char) : Char :=
  if fieldCount line ';' < fieldCount line '|' then
    if fieldCount line '|' < fieldCount line '\t' then
      if fieldCount line '\t' < fieldCount line ',' then ',' else '\t'
    else if fieldCount line '|' < fieldCount line ',' then ',' else '|'
  else
    if fieldCount line ';' < fieldCount line '\t' then
      if fieldCount line '\t' < fieldCount line ',' then ',' else '\t'
    else if fieldCount line ';' < fieldCount line ',' then ',' else ';'

/-- Extract the header (or data) fields of a line for a known dialect
(lines 248-262 / 287-302): quote-aware tokenization for `;`, naive split
with per-field strip for the other delimiters. -/
def extractFields (d : Char) (line : List Char) : List (List Char) :=
  if d = ';' then tokenizeSemicolon line else (psplit d line).map strip

/-- The ColumnNormalizer (lines 267-268): strip, replace space/hyphen/period
with underscore, drop every character that is not alphanumeric or
underscore. -/
def normalizeRaw (h : List Char) : List Char :=
  ((strip h).map fun c => if c = ' ' ∨ c = '-' ∨ c = '.' then '_' else c).filter
    fun c => c.isAlphanum || c = '_'

/-- Validity test on a normalized name (line 269): nonempty and not
starting with a digit. -/
def validName : List Char → Bool
  | [] => false
  | c :: _ => !c.isDigit

/-- The positional placeholder used for invalid local headers (line 272). -/
def fieldPlaceholder (n : Nat) : List Char :=
  "field_".toList ++ (toString n).toList

/-- The per-file clean header list (lines 265-272): normalize each raw
header; an invalid result is replaced by `field_<position>`. -/
def cleanHeaders (hs : List (List Char)) : List (List Char) :=
  hs.foldl
    (fun acc h =>
      let ch := normalizeRaw h
      acc ++ [if validName ch then ch else fieldPlaceholder acc.length])
    []

/-- Index of the first occurrence of `x`, mirroring Python `list.index`
guarded by `x in list` (lines 310-311). -/
def firstIdx {α : Type} [DecidableEq α] (x : α) : List α → Option Nat
  | [] => none
  | y :: ys => if y = x then some 0 else (firstIdx x ys).map (· + 1)

/-- Quote escaping applied to every projected value (line 313): replace
every `"` by `'`. -/
def replQuote (f : List Char) : List Char :=
  f.map fun c => if c = '"' then '\'' else c

/-- Value projected for one unified column (lines 308-314): empty unless
the name occurs among the file's clean headers; then the field at the
first matching header index, if the row is long enough, quote-escaped. -/
def projVal (hdrs fields : List (List Char)) (col : List Char) : List Char :=
  match firstIdx col hdrs with
  | none => []
  | some i => if i < fields.length then replQuote (fields.getD i []) else []

/-- One ProjectedRow (lines 304-314): the two provenance values followed by
one looked-up value per unified column. -/
def projectRow (filename fdate : List Char) (hdrs : List (List Char))
    (unified : List (List Char)) (fields : List (List Char)) : List (List Char) :=
  filename :: fdate :: unified.map (projVal hdrs fields)

/-- Python `content.split('\n')`. -/
def pyLines (content : List Char) : List (List Char) := psplit '\n' content

/-- A line is blank when `line.strip()` is falsy. -/
def isBlank (l : List Char) : Bool := strip l = []

/-- Python `line.startswith('#')`. -/
def startsHash : List Char → Bool
  | [] => false
  | c :: _ => c = '#'

/-- Header search (lines 209-213): the first non-blank line not starting
with `#`. -/
def findHeader (lines : List (List Char)) : Option (List Char) :=
  lines.find? fun l => !isBlank l && !startsHash l

/-- Python `str.replace(pat, rep)` for a nonempty pattern, with enough fuel
to scan the whole string (non-overlapping, left to right). -/
def pyReplaceAux (pat rep : List Char) : Nat → List Char → List Char
  | 0, s => s
  | _, [] => []
  | fuel + 1, c :: rest =>
    if pat ≠ [] ∧ pat.isPrefixOf (c :: rest) then
      rep ++ pyReplaceAux pat rep fuel (List.drop (pat.length - 1) rest)
    else c :: pyReplaceAux pat rep fuel rest

def pyReplace (s pat rep : List Char) : List Char :=
  pyReplaceAux pat rep s.length s

/-- `os.path.basename` for the bucket paths in play: the part after the
last `/` (line 277). -/
def basename (p : List Char) : List Char :=
  (psplit '/' p).getLastD []

/-- Provenance `file_date` (line 278): the basename with `.txt` and
`basica` removed. -/
def fileDateOf (p : List Char) : List Char :=
  pyReplace (pyReplace (basename p) ".txt".toList []) "basica".toList []

/-- Outcome of `load_file_to_bigquery` on one decoded file, refining each
`return False` site into its own constructor: no usable header line
(line 217), the dead delimiter-detection failure branch (line 245), a file
with zero non-blank data lines (line 321), or success carrying the
projected rows. -/
inductive LoadOutcome
  | success : List (List (List Char)) → LoadOutcome
  | noHeader : LoadOutcome
  | dialectError : LoadOutcome
  | noData : LoadOutcome
  deriving DecidableEq

/-- The per-file pipeline of `load_file_to_bigquery` (lines 207-321) on an
already-decoded content string: find the header line, sniff the dialect,
clean the local headers, then project every non-blank line after the first
into the unified schema. -/
def loadFile (filePath content : List Char) (unified : List (List Char)) : LoadOutcome :=
  let lines := pyLines content
  match findHeader lines with
  | none => .noHeader
  | some headerLine =>
    match bestDelimiter headerLine with
    | none => .dialectError
    | some d =>
      let hdrs := cleanHeaders (extractFields d headerLine)
      let filename := basename filePath
      let fdate := fileDateOf filePath
      let rows := (lines.drop 1).filterMap fun line =>
        if isBlank line then none
        else some (projectRow filename fdate hdrs unified (extractFields d line))
      if rows = [] then .noData else .success rows

/-- The valid normalized column names one sampled file contributes to the
unified schema (lines 82-146 of `detect_unified_schema`): find the header,
sniff the delimiter, tokenize, keep only non-blank raw headers whose
normalization is valid. A file with no header contributes nothing
(the `continue` branches). -/
def validNamesOfFile (content : List Char) : List (List Char) :=
  match findHeader (pyLines content) with
  | none => []
  | some hl =>
    match bestDelimiter hl with
    | none => []
    | some d =>
      ((extractFields d hl).filter fun h => !isBlank h).filterMap fun h =>
        let ch := normalizeRaw h
        if validName ch then some ch else none

/-- Code point of a character, the key Python compares strings by. -/
def charCode (c : Char) : Nat := c.toNat

/-- Lexicographic comparison of column names by code point, Python's
`<=` on `str`. -/
def listCharLe : List Char → List Char → Bool
  | [], _ => true
  | _ :: _, [] => false
  | a :: as, b :: bs =>
    if charCode a < charCode b then true
    else if charCode b < charCode a then false
    else listCharLe as bs

/-- The order the unified schema is sorted by. -/
def colLe (x y : List Char) : Prop := listCharLe x y = true

instance : DecidableRel colLe := fun x y =>
  inferInstanceAs (Decidable (listCharLe x y = true))

/-- All names contributed by a sample, in encounter order (the elements
inserted into the working set `all_headers`, line 146). -/
def sampleNames (sample : List (List Char)) : List (List Char) :=
  (sample.map validNamesOfFile).flatten

/-- The SchemaUnifier (lines 55 and 149): `sorted(list(set(...)))`,
modelled as deduplication followed by sorting. -/
def unifySample (sample : List (List Char)) : List (List Char) :=
  List.insertionSort colLe (sampleNames sample).dedup

/-- `detect_unified_schema` over the decoded contents of the discovered
files (lines 50-58, 148-153): `None` when no files were found, otherwise
the unified schema computed from the first five files. -/
def detectUnifiedSchema (contents : List (List Char)) : Option (List (List Char)) :=
  if contents = [] then none else some (unifySample (contents.take 5))

/-- Externally visible actions of `load_all_anac_data`. -/
inductive OrchAction
  | clearTable : OrchAction
  | createTable : OrchAction
  | loadAct : List Char → OrchAction
  deriving DecidableEq

/-- The orchestrator `load_all_anac_data` (lines 408-436) over a corpus of
(path, decoded content) pairs: abort with no actions when the detected
schema is `None` or empty (`if not unified_schema: return`), otherwise
clear the table, create it, and load every file. -/
def loadAllAnacData (files : List (List Char × List Char)) : List OrchAction :=
  match detectUnifiedSchema (files.map Prod.snd) with
  | none => []
  | some schema =>
    if schema = [] then []
    else .clearTable :: .createTable :: files.map fun f => .loadAct f.1

/-- Per-file outcomes of the loading loop (lines 431-434). -/
def outcomesOf (files : List (List Char × List Char)) (unified : List (List Char)) :
    List LoadOutcome :=
  files.map fun f => loadFile f.1 f.2 unified

/-- Test whether an outcome is a success (the loop's `if load_file(...)`). -/
def isSuccess : LoadOutcome → Bool
  | .success _ => true
  | _ => false

/-- The aggregate result the orchestrator reports (line 436):
`successful_loads` out of `len(files)`. -/
def loadResult (files : List (List Char × List Char)) (unified : List (List Char)) :
    Nat × Nat :=
  (((outcomesOf files unified).filter isSuccess).length, files.length)

/-- The candidate encodings of the source, in priority order
(lines 192 and 68). -/
inductive PyEncoding
  | latin1 | iso8859_1 | utf8 | cp1252
  deriving DecidableEq

/-- Latin-1 decoding of one byte: the code point equals the byte value
(the codec is total). -/
def latin1Char (b : Fin 256) : Char := Char.ofNat b.val

/-- Windows-1252 code point of a byte: identity outside `0x80..0x9F`, the
standard table inside it, undefined (decode error) at the five holes
`0x81, 0x8D, 0x8F, 0x90, 0x9D`. -/
def cp1252Point (n : Nat) : Option Nat :=
  if n < 0x80 ∨ 0x9F < n then some n
  else match n with
    | 0x80 => some 0x20AC
    | 0x82 => some 0x201A
    | 0x83 => some 0x192
    | 0x84 => some 0x201E
    | 0x85 => some 0x2026
    | 0x86 => some 0x2020
    | 0x87 => some 0x2021
    | 0x88 => some 0x2C6
    | 0x89 => some 0x2030
    | 0x8A => some 0x160
    | 0x8B => some 0x2039
    | 0x8C => some 0x152
    | 0x8E => some 0x17D
    | 0x91 => some 0x2018
    | 0x92 => some 0x2019
    | 0x93 => some 0x201C
    | 0x94 => some 0x201D
    | 0x95 => some 0x2022
    | 0x96 => some 0x2013
    | 0x97 => some 0x2014
    | 0x98 => some 0x2DC
    | 0x99 => some 0x2122
    | 0x9A => some 0x161
    | 0x9B => some 0x203A
    | 0x9C => some 0x153
    | 0x9E => some 0x17E
    | _ => none

/-- Whether a byte is a UTF-8 continuation byte. -/
def isCont (b : Fin 256) : Bool := 0x80 ≤ b.val && b.val < 0xC0

/-- Strict UTF-8 decoding (can fail, unlike Latin-1): ASCII passes through,
multi-byte sequences need valid continuation bytes, overlong encodings and
surrogate code points are rejected. -/
def decodeUtf8 : List (Fin 256) → Option (List Char)
  | [] => some []
  | b :: rest =>
    if b.val < 0x80 then (decodeUtf8 rest).map fun cs => Char.ofNat b.val :: cs
    else if b.val < 0xC2 then none
    else if b.val < 0xE0 then
      match rest with
      | b2 :: rest2 =>
        if isCont b2 then
          (decodeUtf8 rest2).map fun cs =>
            Char.ofNat ((b.val - 0xC0) * 0x40 + (b2.val - 0x80)) :: cs
        else none
      | [] => none
    else if b.val < 0xF0 then
      match rest with
      | b2 :: b3 :: rest3 =>
        if isCont b2 && isCont b3 then
          let cp := (b.val - 0xE0) * 0x1000 + (b2.val - 0x80) * 0x40 + (b3.val - 0x80)
          if cp < 0x800 ∨ (0xD800 ≤ cp ∧ cp ≤ 0xDFFF) then none
          else (decodeUtf8 rest3).map fun cs => Char.ofNat cp :: cs
        else none
      | _ => none
    else if b.val < 0xF5 then
      match rest with
      | b2 :: b3 :: b4 :: rest4 =>
        if isCont b2 && isCont b3 && isCont b4 then
          let cp := (b.val - 0xF0) * 0x40000 + (b2.val - 0x80) * 0x1000 +
            (b3.val - 0x80) * 0x40 + (b4.val - 0x80)
          if cp < 0x10000 ∨ 0x10FFFF < cp then none
          else (decodeUtf8 rest4).map fun cs => Char.ofNat cp :: cs
        else none
      | _ => none
    else none

/-- Decoding a byte sequence under one candidate encoding, per the Python
codecs: `latin-1` and `iso-8859-1` are the same total map, `utf-8` is
strict, `cp1252` fails on the five undefined bytes. -/
def decodeWith : PyEncoding → List (Fin 256) → Option (List Char)
  | .latin1, bs => some (bs.map latin1Char)
  | .iso8859_1, bs => some (bs.map latin1Char)
  | .utf8, bs => decodeUtf8 bs
  | .cp1252, bs => bs.mapM fun b => (cp1252Point b.val).map Char.ofNat

/-- The candidate list `['latin-1', 'iso-8859-1', 'utf-8', 'cp1252']`. -/
def encodingCandidates : List PyEncoding :=
  [.latin1, .iso8859_1, .utf8, .cp1252]

/-- The EncodingResolver loop (lines 195-201): return the first candidate
that decodes without error, together with the decoded text. -/
def resolveAux : List PyEncoding → List (Fin 256) → Option (PyEncoding × List Char)
  | [], _ => none
  | e :: es, bs =>
    match decodeWith e bs with
    | some t => some (e, t)
    | none => resolveAux es bs

def resolveEncoding (bs : List (Fin 256)) : Option (PyEncoding × List Char) :=
  resolveAux encodingCandidates bs

/-- `psplit` always yields at least one field (mirrors `"".split(d) == [""]`). -/
theorem psplit_ne_nil (d : Char) (l : List Char) : psplit d l ≠ [] := by
  induction l with
  | nil => simp [psplit]
  | cons c rest ih =>
    simp only [psplit]
    split
    · simp
    · cases h : psplit d rest with
      | nil => simp
      | cons f fs => simp

theorem fieldCount_semi_pos (line : List Char) : 0 < fieldCount line ';' := by
  simp [fieldCount]

theorem bestDelimiter_eq_spec (line : List Char) :
    bestDelimiter line = some (sniffSpec line) := by
  have h1 : 0 < fieldCount line ';' := fieldCount_semi_pos line
  by_cases h2 : fieldCount line ';' < fieldCount line '|'
  · by_cases h3 : fieldCount line '|' < fieldCount line '\t'
    · by_cases h4 : fieldCount line '\t' < fieldCount line ','
      · simp [bestDelimiter, delimiters, sniffAux, sniffSpec, h1, h2, h3, h4]
      · simp [bestDelimiter, delimiters, sniffAux, sniffSpec, h1, h2, h3, h4]
    · by_cases h4 : fieldCount line '|' < fieldCount line ','
      · simp [bestDelimiter, delimiters, sniffAux, sniffSpec, h1, h2, h3, h4]
      · simp [bestDelimiter, delimiters, sniffAux, sniffSpec, h1, h2, h3, h4]
  · by_cases h3 : fieldCount line ';' < fieldCount line '\t'
    · by_cases h4 : fieldCount line '\t' < fieldCount line ','
      · simp [bestDelimiter, delimiters, sniffAux, sniffSpec, h1, h2, h3, h4]
      · simp [bestDelimiter, delimiters, sniffAux, sniffSpec, h1, h2, h3, h4]
    · by_cases h4 : fieldCount line ';' < fieldCount line ','
      · simp [bestDelimiter, delimiters, sniffAux, sniffSpec, h1, h2, h3, h4]
      · simp [bestDelimiter, delimiters, sniffAux, sniffSpec, h1, h2, h3, h4]

theorem charCode_inj {a b : Char} (h : charCode a = charCode b) : a = b := by
  have := Char.ofNat_toNat a
  rw [show a.toNat = b.toNat from h, Char.ofNat_toNat] at this
  exact this.symm

theorem listCharLe_total : ∀ x y, listCharLe x y = true ∨ listCharLe y x = true := by
  intro x
  induction x with
  | nil => intro y; left; simp [listCharLe]
  | cons a as ih =>
    intro y
    cases y with
    | nil => right; simp [listCharLe]
    | cons b bs =>
      rcases Nat.lt_trichotomy (charCode a) (charCode b) with h | h | h
      · left; simp [listCharLe, h]
      · have h2 : ¬ charCode a < charCode b := by omega
        have h3 : ¬ charCode b < charCode a := by omega
        rcases ih bs with h4 | h4
        · left; simp [listCharLe, h2, h3, h4]
        · right; simp [listCharLe, h2, h3, h4]
      · right; simp [listCharLe, h]

theorem listCharLe_trans :
    ∀ x y z, listCharLe x y = true → listCharLe y z = true → listCharLe x z = true := by
  intro x
  induction x with
  | nil => intro y z _ _; simp [listCharLe]
  | cons a as ih =>
    intro y z hxy hyz
    cases y with
    | nil => simp [listCharLe] at hxy
    | cons b bs =>
      cases z with
      | nil => simp [listCharLe] at hyz
      | cons c cs =>
        simp only [listCharLe] at hxy hyz ⊢
        split_ifs at hxy hyz ⊢ with h1 h2 h3 h4 h5 h6 <;>
          first
          | rfl
          | omega
          | (exact ih bs cs hxy hyz)

theorem listCharLe_antisymm :
    ∀ x y, listCharLe x y = true → listCharLe y x = true → x = y := by
  intro x
  induction x with
  | nil =>
    intro y _ hyx
    cases y with
    | nil => rfl
    | cons b bs => simp [listCharLe] at hyx
  | cons a as ih =>
    intro y hxy hyx
    cases y with
    | nil => simp [listCharLe] at hxy
    | cons b bs =>
      simp only [listCharLe] at hxy hyx
      split_ifs at hxy hyx with h1 h2 <;> try omega
      have : a = b := charCode_inj (by omega)
      rw [this, ih bs hxy hyx]

instance : IsTotal (List Char) colLe := ⟨listCharLe_total⟩

instance : IsTrans (List Char) colLe := ⟨listCharLe_trans⟩

instance : IsAntisymm (List Char) colLe := ⟨listCharLe_antisymm⟩

theorem mem_strip {a : Char} {l : List Char} (h : a ∈ strip l) : a ∈ l := by
  unfold strip at h
  rw [List.mem_reverse] at h
  have h2 : a ∈ (l.dropWhile Char.isWhitespace).reverse :=
    (List.dropWhile_sublist _).subset h
  rw [List.mem_reverse] at h2
  exact (List.dropWhile_sublist _).subset h2

theorem noQuote_tokenizeQuotedAux :
    ∀ (line cur : List Char) (inQ : Bool), '"' ∉ cur →
      ∀ f ∈ tokenizeQuotedAux line cur inQ, '"' ∉ f := by
  intro line
  induction line with
  | nil =>
    intro cur inQ hcur f hf
    simp only [tokenizeQuotedAux, List.mem_singleton] at hf
    subst hf
    exact fun h => hcur (mem_strip h)
  | cons c rest ih =>
    intro cur inQ hcur f hf
    by_cases hc : c = '"'
    · rw [hc] at hf
      simp only [tokenizeQuotedAux, if_pos rfl] at hf
      exact ih cur (!inQ) hcur f hf
    · simp only [tokenizeQuotedAux, if_neg hc] at hf
      by_cases hb : (c = ';' && !inQ) = true
      · rw [if_pos hb] at hf
        rcases List.mem_cons.mp hf with hf | hf
        · subst hf; exact fun h => hcur (mem_strip h)
        · exact ih [] inQ (by simp) f hf
      · rw [if_neg hb] at hf
        refine ih (cur ++ [c]) inQ ?_ f hf
        intro h
        rcases List.mem_append.mp h with h | h
        · exact hcur h
        · exact hc (List.mem_singleton.mp h).symm

/-- C3: tokenizing `a;"b;c";d` under the semicolon dialect yields exactly
`["a", "b;c", "d"]`: the quote character toggles the in-quotes state and is
never emitted into a field, a semicolon separates fields only outside
quotes, and the trailing buffer becomes the final field. -/
theorem quote_aware_tokenization :
    tokenizeSemicolon "a;\"b;c\";d".toList =
      ["a".toList, "b;c".toList, "d".toList] ∧
    ∀ line f, f ∈ tokenizeSemicolon line → '"' ∉ f := by
  constructor
  · rfl
  · intro line f hf
    exact noQuote_tokenizeQuotedAux line [] false (by simp) f hf

theorem quote_aware_tokenization_witness : '"' ∉ "xy".toList :=
  quote_aware_tokenization.2 "x\"y".toList "xy".toList (by decide)

theorem firstIdx_eq_none_of_not_mem {α : Type} [DecidableEq α] {x : α}
    {l : List α} (h : x ∉ l) : firstIdx x l = none := by
  induction l with
  | nil => rfl
  | cons y ys ih =>
    have hy : ¬ y = x := fun hy => h (by rw [hy]; exact List.mem_cons_self x ys)
    have hx : x ∉ ys := fun hx => h (List.mem_cons_of_mem y hx)
    simp [firstIdx, hy, ih hx]

/-- C1: projecting the data row `[Ana, 30]` of a file whose normalized
local headers are `[nome, idade]` into the unified schema
`[cidade, idade, nome]` yields, after the two provenance values, exactly
`["", "30", "Ana"]`; in general each unified column's value is obtained by
name lookup in the file's own headers (`projVal`), and a unified column
absent from the file's headers always projects to the empty string. -/
theorem rowProjector_missing_column_fill :
    (∀ fn fd : List Char,
      (projectRow fn fd ["nome".toList, "idade".toList]
          ["cidade".toList, "idade".toList, "nome".toList]
          ["Ana".toList, "30".toList]).drop 2 =
        [[], "30".toList, "Ana".toList]) ∧
    (∀ (fn fd : List Char) (hdrs unified fields : List (List Char)),
      (projectRow fn fd hdrs unified fields).drop 2 =
        unified.map (projVal hdrs fields)) ∧
    (∀ (hdrs fields : List (List Char)) (col : List Char),
      col ∉ hdrs → projVal hdrs fields col = []) := by
  refine ⟨fun fn fd => rfl, fun fn fd hdrs u fields => rfl, ?_⟩
  intro hdrs fields col h
  simp [projVal, firstIdx_eq_none_of_not_mem h]

theorem rowProjector_missing_column_fill_witness :
    projVal ["nome".toList, "idade".toList] ["Ana".toList, "30".toList]
      "cidade".toList = [] :=
  rowProjector_missing_column_fill.2.2 ["nome".toList, "idade".toList]
    ["Ana".toList, "30".toList] "cidade".toList (by decide)

theorem projectRow_length (fn fd : List Char) (hdrs unified fields : List (List Char)) :
    (projectRow fn fd hdrs unified fields).length = unified.length + 2 := by
  simp [projectRow]

/-- C2: every produced ProjectedRow has exactly `len(UnifiedSchema) + 2`
fields, whatever the file's own column count and however many fields each
data row has; and on every row the first two fields are the provenance
values `source_file` (the basename) and `file_date` (derived from the
filename). -/
theorem projectedRow_length_invariant :
    (∀ (fn fd : List Char) (hdrs unified fields : List (List Char)),
      (projectRow fn fd hdrs unified fields).length = unified.length + 2) ∧
    (∀ (p c : List Char) (unified : List (List Char)) rows,
      loadFile p c unified = .success rows →
      ∀ r ∈ rows, r.length = unified.length + 2 ∧
        r.take 2 = [basename p, fileDateOf p]) := by
  refine ⟨projectRow_length, ?_⟩
  intro p c u rows h r hr
  simp only [loadFile] at h
  split at h
  · exact (LoadOutcome.noConfusion h)
  · split at h
    · exact (LoadOutcome.noConfusion h)
    · split at h
      · exact (LoadOutcome.noConfusion h)
      · injection h with h
        subst h
        rcases List.mem_filterMap.mp hr with ⟨line, _, hsome⟩
        by_cases hb : isBlank line = true
        · rw [if_pos hb] at hsome; exact (Option.noConfusion hsome)
        · rw [if_neg hb] at hsome
          injection hsome with hsome
          subst hsome
          exact ⟨projectRow_length _ _ _ _ _, rfl⟩

theorem projectedRow_length_invariant_witness :
    (["f.txt".toList, "f".toList, "x".toList, "y".toList].length =
      ["a".toList, "b".toList].length + 2) ∧
    ["f.txt".toList, "f".toList, "x".toList, "y".toList].take 2 =
      [basename "f.txt".toList, fileDateOf "f.txt".toList] :=
  projectedRow_length_invariant.2 "f.txt".toList "a;b\nx;y".toList
    ["a".toList, "b".toList]
    [["f.txt".toList, "f".toList, "x".toList, "y".toList]] (by decide)
    ["f.txt".toList, "f".toList, "x".toList, "y".toList] (by decide)

/-- C4: the DialectSniffer — counting fields quote-aware for semicolon and
by naive split for pipe, tab and comma — selects the candidate with the
strictly highest field count on the header line; on ties the candidate
earlier in the priority order wins, i.e. a candidate is never selected when
one earlier in the order has at least its field count. `priorityIdx` is the
candidate's index in `delimiters`, as the third conjunct fixes. -/
theorem dialectSniffer_selection :
    (∀ (line : List Char) (d : Char), d ∈ delimiters →
      (∀ e ∈ delimiters, e ≠ d → fieldCount line e < fieldCount line d) →
      bestDelimiter line = some d) ∧
    (∀ (line : List Char) (d e : Char), d ∈ delimiters → e ∈ delimiters →
      priorityIdx e < priorityIdx d → fieldCount line d ≤ fieldCount line e →
      bestDelimiter line ≠ some d) ∧
    (∀ d ∈ delimiters, delimiters[priorityIdx d]? = some d) := by
  refine ⟨?_, ?_, by decide⟩
  · intro line d hd hmax
    rw [bestDelimiter_eq_spec]
    simp only [delimiters, List.mem_cons, List.not_mem_nil, or_false] at hd
    rcases hd with rfl | rfl | rfl | rfl <;>
      [(have e1 := hmax '|' (by simp [delimiters]) (by decide);
        have e2 := hmax '\t' (by simp [delimiters]) (by decide);
        have e3 := hmax ',' (by simp [delimiters]) (by decide));
       (have e1 := hmax ';' (by simp [delimiters]) (by decide);
        have e2 := hmax '\t' (by simp [delimiters]) (by decide);
        have e3 := hmax ',' (by simp [delimiters]) (by decide));
       (have e1 := hmax ';' (by simp [delimiters]) (by decide);
        have e2 := hmax '|' (by simp [delimiters]) (by decide);
        have e3 := hmax ',' (by simp [delimiters]) (by decide));
       (have e1 := hmax ';' (by simp [delimiters]) (by decide);
        have e2 := hmax '|' (by simp [delimiters]) (by decide);
        have e3 := hmax '\t' (by simp [delimiters]) (by decide))] <;>
      (unfold sniffSpec; split_ifs <;> first | rfl | (exfalso; omega))
  · intro line d e hd he hpe hle
    rw [bestDelimiter_eq_spec]
    simp only [delimiters, List.mem_cons, List.not_mem_nil, or_false] at hd he
    rcases hd with rfl | rfl | rfl | rfl <;> rcases he with rfl | rfl | rfl | rfl <;>
      simp only [priorityIdx] at hpe <;> try omega
    all_goals
      (intro hcon; injection hcon with hcon;
       unfold sniffSpec at hcon; split_ifs at hcon <;> simp_all <;> omega)

theorem dialectSniffer_selection_witness :
    bestDelimiter "a;b".toList = some ';' :=
  dialectSniffer_selection.1 "a;b".toList ';' (by decide) (by decide)

/-- C7 counterexample: the header line `abc` yields exactly one field under
every candidate delimiter, yet dialect sniffing does not fail: the
semicolon candidate is selected (its count 1 beats the initial maximum 0)
and a file with that header loads successfully instead of being recorded
as a per-file failure. -/
theorem dialectError_unreachable_counterexample :
    fieldCount "abc".toList ';' = 1 ∧ fieldCount "abc".toList '|' = 1 ∧
    fieldCount "abc".toList '\t' = 1 ∧ fieldCount "abc".toList ',' = 1 ∧
    bestDelimiter "abc".toList = some ';' ∧
    loadFile "f.txt".toList "abc\nx".toList ["abc".toList] =
      .success [["f.txt".toList, "f".toList, "x".toList]] := by
  refine ⟨by decide, by decide, by decide, by decide, by decide, by decide⟩

/-- C7 amended: dialect sniffing never fails — every candidate yields at
least one field, so the sniffer always selects a delimiter (semicolon when
all candidates tie at one field), the `DialectError` return branch is dead
code, and a file whose header has a maximal field count of 1 is processed
as a single-column file rather than recorded as a failure. -/
theorem dialectSniffer_never_fails :
    (∀ line : List Char, (∀ d ∈ delimiters, fieldCount line d ≤ 1) →
      bestDelimiter line = some ';') ∧
    (∀ (p c : List Char) (unified : List (List Char)),
      loadFile p c unified ≠ .dialectError) := by
  constructor
  · intro line h
    have h1 : 0 < fieldCount line ';' := fieldCount_semi_pos line
    have e1 := h ';' (by simp [delimiters])
    have e2 := h '|' (by simp [delimiters])
    have e3 := h '\t' (by simp [delimiters])
    have e4 := h ',' (by simp [delimiters])
    rw [bestDelimiter_eq_spec]
    unfold sniffSpec
    split_ifs <;> first | rfl | (exfalso; omega)
  · intro p c u h
    simp only [loadFile] at h
    split at h
    · exact LoadOutcome.noConfusion h
    · rename_i hl
      split at h
      · rename_i hnone
        rw [bestDelimiter_eq_spec] at hnone
        exact Option.noConfusion hnone
      · split at h <;> exact LoadOutcome.noConfusion h

theorem dialectSniffer_never_fails_witness :
    bestDelimiter "abc".toList = some ';' :=
  dialectSniffer_never_fails.1 "abc".toList (by decide)

/-- C6: `SchemaDetectionError` is batch-fatal and atomic — when the sampled
files yield zero valid normalized column names the orchestrator performs no
externally visible action at all: the table is neither cleared nor created
and no per-file load is attempted. -/
theorem schemaDetectionError_batch_fatal
    (files : List (List Char × List Char))
    (h : unifySample ((files.map Prod.snd).take 5) = []) :
    loadAllAnacData files = [] := by
  unfold loadAllAnacData detectUnifiedSchema
  by_cases hf : files.map Prod.snd = []
  · rw [if_pos hf]
  · rw [if_neg hf, h]
    simp

theorem schemaDetectionError_batch_fatal_witness :
    loadAllAnacData [("f.txt".toList, "1a;2b\nx;y".toList)] = [] :=
  schemaDetectionError_batch_fatal [("f.txt".toList, "1a;2b\nx;y".toList)]
    (by decide)

/-- C8 counterexample: a file whose header is found but which yields zero
data rows is not distinguished from a hard failure in the aggregate
LoadResult — it returns the non-success outcome `noData` and contributes
(0 successes, 1 attempted), exactly what a file with no usable header
(a hard per-file failure) contributes. -/
theorem emptyData_counted_as_failure_counterexample :
    loadFile "e.txt".toList "h1;h2".toList ["h1".toList] = .noData ∧
    loadResult [("e.txt".toList, "h1;h2".toList)] ["h1".toList] = (0, 1) ∧
    loadFile "b.txt".toList "".toList ["h1".toList] = .noHeader ∧
    loadResult [("b.txt".toList, "".toList)] ["h1".toList] = (0, 1) := by
  refine ⟨by decide, by decide, by decide, by decide⟩

/-- C8 amended: a file with a header but zero non-blank data lines takes the
dedicated warning branch (`noData`, line 320) and is excluded from the load
— its outcome carries no rows and is never a success — but the aggregate
LoadResult only counts successes out of files attempted, so the file is
counted exactly like a hard per-file failure: attempted + 1, successes
unchanged. -/
theorem emptyData_excluded_not_success :
    ∀ (p c : List Char) (unified : List (List Char))
      (rest : List (List Char × List Char)),
      loadFile p c unified = .noData →
      loadResult ((p, c) :: rest) unified =
        ((loadResult rest unified).1, (loadResult rest unified).2 + 1) ∧
      ∀ rows, loadFile p c unified ≠ .success rows := by
  intro p c u rest h
  constructor
  · simp [loadResult, outcomesOf, h, isSuccess]
  · intro rows hc
    rw [h] at hc
    exact LoadOutcome.noConfusion hc

theorem emptyData_excluded_not_success_witness :
    loadResult [("e.txt".toList, "h1;h2".toList)] ["h1".toList] =
      ((loadResult [] ["h1".toList]).1, (loadResult [] ["h1".toList]).2 + 1) :=
  (emptyData_excluded_not_success "e.txt".toList "h1;h2".toList ["h1".toList]
    [] (by decide)).1

/-- C9 counterexample: the raw headers `a-b` and `a.b` are distinct yet both
normalize to `a_b`; on the data row `[x, y]` the projection resolves `a_b`
to the EARLIER occurrence — Python `list.index` returns the first match —
producing `x`, not the later occurrence's `y` that the claim asserts. -/
theorem duplicate_header_counterexample :
    normalizeRaw "a-b".toList = "a_b".toList ∧
    normalizeRaw "a.b".toList = "a_b".toList ∧
    "a-b".toList ≠ "a.b".toList ∧
    cleanHeaders ["a-b".toList, "a.b".toList] = ["a_b".toList, "a_b".toList] ∧
    projVal ["a_b".toList, "a_b".toList] ["x".toList, "y".toList] "a_b".toList
      = "x".toList ∧
    "x".toList ≠ "y".toList := by
  refine ⟨by decide, by decide, by decide, by decide, by decide, by decide⟩

theorem firstIdx_append_cons {α : Type} [DecidableEq α] (pre post : List α)
    (x : α) (h : x ∉ pre) : firstIdx x (pre ++ x :: post) = some pre.length := by
  induction pre with
  | nil => simp [firstIdx]
  | cons y ys ih =>
    have hy : ¬ y = x := fun e => h (by rw [e]; exact List.mem_cons_self x ys)
    have hx : x ∉ ys := fun hx => h (List.mem_cons_of_mem y hx)
    simp [firstIdx, hy, ih hx]

/-- C9 amended: when several local headers normalize to the same name, the
projection lookup resolves that name to the EARLIEST occurrence: whatever
duplicates follow, the projected value is the field at the first matching
header position (quote-escaped, or empty when the row is too short). -/
theorem duplicate_header_earlier_wins :
    ∀ (pre post fields : List (List Char)) (col : List Char),
      col ∉ pre →
      projVal (pre ++ col :: post) fields col =
        if pre.length < fields.length then replQuote (fields.getD pre.length [])
        else [] := by
  intro pre post fields col h
  simp [projVal, firstIdx_append_cons pre post col h]

theorem duplicate_header_earlier_wins_witness :
    projVal ([] ++ "a_b".toList :: ["a_b".toList])
      ["x".toList, "y".toList] "a_b".toList =
      if ([] : List (List Char)).length < ["x".toList, "y".toList].length then
        replQuote (["x".toList, "y".toList].getD ([] : List (List Char)).length [])
      else [] :=
  duplicate_header_earlier_wins [] ["a_b".toList] ["x".toList, "y".toList]
    "a_b".toList (by decide)

theorem mem_sampleNames {x : List Char} {s : List (List Char)} :
    x ∈ sampleNames s ↔ ∃ c ∈ s, x ∈ validNamesOfFile c := by
  simp [sampleNames, List.mem_flatten]

theorem unifySample_eq_of_mem_iff {s1 s2 : List (List Char)}
    (h : ∀ x, x ∈ sampleNames s1 ↔ x ∈ sampleNames s2) :
    unifySample s1 = unifySample s2 := by
  unfold unifySample
  have n1 := List.nodup_dedup (sampleNames s1)
  have n2 := List.nodup_dedup (sampleNames s2)
  have hd : List.Perm (sampleNames s1).dedup (sampleNames s2).dedup := by
    rw [List.perm_ext_iff_of_nodup n1 n2]
    intro a
    rw [List.mem_dedup, List.mem_dedup]
    exact h a
  refine List.eq_of_perm_of_sorted ?_ (List.sorted_insertionSort colLe _)
    (List.sorted_insertionSort colLe _)
  exact ((List.perm_insertionSort colLe _).trans hd).trans
    (List.perm_insertionSort colLe _).symm

theorem validName_of_mem_validNamesOfFile {x c : List Char}
    (hx : x ∈ validNamesOfFile c) : validName x = true := by
  unfold validNamesOfFile at hx
  split at hx
  · simp at hx
  · split at hx
    · simp at hx
    · rcases List.mem_filterMap.mp hx with ⟨h0, _, heq⟩
      simp only [] at heq
      by_cases hv : validName (normalizeRaw h0) = true
      · rw [if_pos hv] at heq
        injection heq with heq
        rw [← heq]
        exact hv
      · rw [if_neg hv] at heq
        exact Option.noConfusion heq

/-- C5: SchemaUnifier determinism — the unified schema is a sorted,
duplicate-free list of valid normalized column names that depends only on
WHICH names the sampled files contribute: permuting the sampled files, or
replacing a file by one contributing the same name set (e.g. the same
columns in another order), leaves the result identical; being a pure
function of the sample, running it twice on the same sample trivially
yields the identical ordered result. -/
theorem schemaUnifier_deterministic :
    (∀ s1 s2 : List (List Char), s1.Perm s2 → unifySample s1 = unifySample s2) ∧
    (∀ (pre post : List (List Char)) (f g : List Char),
      (∀ x, x ∈ validNamesOfFile f ↔ x ∈ validNamesOfFile g) →
      unifySample (pre ++ f :: post) = unifySample (pre ++ g :: post)) ∧
    (∀ s : List (List Char),
      (unifySample s).Sorted colLe ∧ (unifySample s).Nodup) ∧
    (∀ (s : List (List Char)) (x : List Char),
      x ∈ unifySample s → validName x = true) := by
  refine ⟨?_, ?_, ?_, ?_⟩
  · intro s1 s2 hp
    refine unifySample_eq_of_mem_iff fun x => ?_
    rw [mem_sampleNames, mem_sampleNames]
    constructor
    · rintro ⟨c, hc, hx⟩; exact ⟨c, hp.mem_iff.mp hc, hx⟩
    · rintro ⟨c, hc, hx⟩; exact ⟨c, hp.mem_iff.mpr hc, hx⟩
  · intro pre post f g h
    refine unifySample_eq_of_mem_iff fun x => ?_
    rw [mem_sampleNames, mem_sampleNames]
    constructor
    · rintro ⟨c, hc, hx⟩
      rcases List.mem_append.mp hc with hc | hc
      · exact ⟨c, List.mem_append_left _ hc, hx⟩
      · rcases List.mem_cons.mp hc with rfl | hc
        · exact ⟨g, List.mem_append_right _ (List.mem_cons_self g post),
            (h x).mp hx⟩
        · exact ⟨c, List.mem_append_right _ (List.mem_cons_of_mem g hc), hx⟩
    · rintro ⟨c, hc, hx⟩
      rcases List.mem_append.mp hc with hc | hc
      · exact ⟨c, List.mem_append_left _ hc, hx⟩
      · rcases List.mem_cons.mp hc with rfl | hc
        · exact ⟨f, List.mem_append_right _ (List.mem_cons_self f post),
            (h x).mpr hx⟩
        · exact ⟨c, List.mem_append_right _ (List.mem_cons_of_mem f hc), hx⟩
  · intro s
    refine ⟨List.sorted_insertionSort colLe _, ?_⟩
    exact (List.perm_insertionSort colLe _).nodup_iff.mpr
      (List.nodup_dedup (sampleNames s))
  · intro s x hx
    have hx2 : x ∈ (sampleNames s).dedup :=
      (List.perm_insertionSort colLe _).mem_iff.mp hx
    rw [List.mem_dedup, mem_sampleNames] at hx2
    rcases hx2 with ⟨c, _, hx3⟩
    exact validName_of_mem_validNamesOfFile hx3

theorem schemaUnifier_deterministic_witness :
    unifySample ["nome;idade".toList, "idade;cidade".toList] =
      unifySample ["idade;cidade".toList, "nome;idade".toList] :=
  schemaUnifier_deterministic.1 ["nome;idade".toList, "idade;cidade".toList]
    ["idade;cidade".toList, "nome;idade".toList] (List.Perm.swap _ _ _)

/-- C10: encoding resolution never fails — the Latin-1 codec maps every
byte to the code point of the same value, so the first candidate encoding
always decodes; the resolver therefore returns Latin-1 with that decoding
for EVERY byte sequence, the no-candidate-matched branch is unreachable and
ISO-8859-1, UTF-8 and Windows-1252 are never selected. The second conjunct
shows the model's decoding is not vacuously total: strict UTF-8 rejects the
byte `0xFF`. -/
theorem encodingResolver_always_latin1 :
    (∀ bs : List (Fin 256),
      resolveEncoding bs = some (PyEncoding.latin1, bs.map latin1Char)) ∧
    decodeWith PyEncoding.utf8 [(0xFF : Fin 256)] = none := by
  exact ⟨fun bs => rfl, by decide⟩

end Anac
